import Mathlib

set_option maxHeartbeats 1000000

/-! # Verification of the dashboard pipeline (`src/app.py`)

A shallow embedding of the data pipeline of the university-outcomes
dashboard: construction of the label dictionary (`label_dict`, app.py lines
11-19), classification of columns into categorical and numeric variables
(lines 22-32), binning of numeric variables (lines 35-43), and the
`update_graph` callback (lines 109-123) that filters by rank range, resolves
group labels and aggregates the mean metric per group.

Missing values (pandas `NaN`) are modelled by `Option`.  Strings are
modelled by `String`, with structural primitives for comparison, suffix test
and substring replacement mirroring Python `str` semantics (code-point
lexicographic order, left-to-right non-overlapping replacement). -/

/-- Code-point order on characters: Python compares strings by code point. -/
def charLt (a b : Char) : Bool := decide (a < b)

/-- Lexicographic strict order on character lists (Python string `<`). -/
def strLtL : List Char → List Char → Bool
  | [], [] => false
  | [], _ :: _ => true
  | _ :: _, [] => false
  | a :: as, b :: bs =>
    if charLt a b then true else if charLt b a then false else strLtL as bs

/-- Python string `<`. -/
def strLt (a b : String) : Bool := strLtL a.data b.data

/-- Python string `<=` (the comparator used when sorting group keys). -/
def strLe (a b : String) : Bool := !(strLt b a)

/-- Python `str.endswith`. -/
def endsWithB (s suf : String) : Bool := List.isSuffixOf suf.data s.data

/-- Python `str.replace` (all non-overlapping occurrences, left to right),
by structural recursion on a fuel bound. -/
def replaceFuel (pat rep : List Char) : Nat → List Char → List Char
  | 0, l => l
  | _ + 1, [] => []
  | fuel + 1, c :: rest =>
    if List.isPrefixOf pat (c :: rest) then
      rep ++ replaceFuel pat rep fuel (List.drop pat.length (c :: rest))
    else c :: replaceFuel pat rep fuel rest

/-- Python `str.replace`. -/
def strReplace (s pat rep : String) : String :=
  ⟨replaceFuel pat.data rep.data s.data.length s.data⟩

/-- Distinct elements of a list in order of first appearance (the identity on
duplicate-free lists; also pandas `unique`). -/
def dedupFirstAux {α : Type} [DecidableEq α] (seen : List α) : List α → List α
  | [] => []
  | x :: l => if x ∈ seen then dedupFirstAux seen l else x :: dedupFirstAux (x :: seen) l

/-- Distinct elements in order of first appearance. -/
def dedupFirst {α : Type} [DecidableEq α] (l : List α) : List α := dedupFirstAux [] l

/-! ## The label dictionary (app.py lines 11-19) -/

/-- A row of the data dictionary table `datadict_institution.xlsx`: the
developer-friendly variable name, the raw `VALUE` (already stringified,
`none` when missing) and the `LABEL` (`none` when missing). -/
structure DictRow where
  varName : String
  value : Option String
  label : Option String
deriving DecidableEq

/-- `labeled_vars` (app.py lines 12-16): dictionary rows whose variable name
is a dataset column and whose `LABEL` and `VALUE` are both present. -/
def qualRows (dictRows : List DictRow) (cols : List String) : List DictRow :=
  dictRows.filter (fun r => cols.contains r.varName && r.label.isSome && r.value.isSome)

/-- Lookup in `label_dict[v]` (app.py lines 17-19): `dict(zip(...))` keeps the
last occurrence of a duplicated `VALUE`, so the lookup returns the label of
the last qualifying row for the pair `(v, val)`. -/
def dictLookup (dictRows : List DictRow) (cols : List String) (v val : String) :
    Option String :=
  (((qualRows dictRows cols).filter
      (fun r => r.varName == v && r.value == some val)).getLast?).bind (fun r => r.label)

/-- The membership test `v in label_dict` (app.py lines 29 and 118): true iff
some qualifying dictionary row carries the variable name `v`. -/
def varHasEntry (dictRows : List DictRow) (cols : List String) (v : String) : Bool :=
  (qualRows dictRows cols).any (fun r => r.varName == v)

/-- The startup inputs the query pipeline reads: the dictionary table rows and
the dataset's column names. -/
structure Config where
  dictRows : List DictRow
  cols : List String

/-! ## Variable classification (app.py lines 22-32) -/

/-- The pandas dtype of a column, as far as the classifier inspects it. -/
inductive Dtype
  | objectD
  | numericD
  | otherD
deriving DecidableEq

/-- A dataset column as the classifier sees it: its name, its dtype, and its
count of distinct non-missing values (`nunique(dropna=True)`). -/
structure Column where
  cname : String
  dtype : Dtype
  nuniqueDropna : Nat
deriving DecidableEq

/-- `exclude_cols` (app.py line 22). -/
def exclude_cols : List String := ["id", "name", "metric"]

/-- `candidate_cols` (app.py line 23). -/
def candidate_cols (cols : List Column) : List Column :=
  cols.filter (fun c => !(exclude_cols.contains c.cname))

/-- `valid_cols` (app.py line 24): candidates with more than one distinct
non-missing value. -/
def valid_cols (cols : List Column) : List Column :=
  (candidate_cols cols).filter (fun c => decide (1 < c.nuniqueDropna))

/-- The categorical test of app.py line 29: a `label_dict` key, or object
dtype. -/
def isCatCol (cfg : Config) (c : Column) : Bool :=
  varHasEntry cfg.dictRows cfg.cols c.cname || c.dtype == Dtype.objectD

/-- The numeric test of app.py line 31 (the `elif` branch). -/
def isNumCol (c : Column) : Bool := c.dtype == Dtype.numericD

/-- `categorical_vars` as first populated by the loop of app.py lines 27-32
(before binned columns are appended and carnegie columns removed). -/
def categorical_vars (cfg : Config) (cols : List Column) : List String :=
  ((valid_cols cols).filter (fun c => isCatCol cfg c)).map (fun c => c.cname)

/-- `numeric_vars` (app.py lines 27-32). -/
def numeric_vars (cfg : Config) (cols : List Column) : List String :=
  ((valid_cols cols).filter (fun c => !isCatCol cfg c && isNumCol c)).map (fun c => c.cname)

/-! ## Binning (app.py lines 35-43) -/

/-- Python `int.bit_length`, by structural recursion on a fuel bound (the
number of halvings of `n` is at most `n`). -/
def bitLenAux : Nat → Nat → Nat
  | 0, _ => 0
  | _ + 1, 0 => 0
  | fuel + 1, n + 1 => bitLenAux fuel ((n + 1) / 2) + 1

/-- Python `int.bit_length`. -/
def bit_length (n : Nat) : Nat := bitLenAux n n

/-- `num_bins` (app.py line 38): `min(max(4, unique_vals.bit_length()), 6)`. -/
def num_bins (unique_vals : Nat) : Nat := min (max 4 (bit_length unique_vals)) 6

/-- The present (non-missing) values of a numeric column. -/
def presentVals (vals : List (Option Rat)) : List Rat := vals.filterMap id

/-- Pandas `nunique()` (dropna by default, app.py line 37). -/
def nunique (vals : List (Option Rat)) : Nat := (dedupFirst (presentVals vals)).length

/-- Smallest element of a list of rationals (only meaningful when nonempty). -/
def minVal : List Rat → Rat
  | [] => 0
  | x :: xs => xs.foldl min x

/-- Largest element of a list of rationals (only meaningful when nonempty). -/
def maxVal : List Rat → Rat
  | [] => 0
  | x :: xs => xs.foldl max x

/-- The `k` equal-width intervals `pd.cut` lays over `[lo, hi]`. -/
def mkBins (lo hi : Rat) (k : Nat) : List (Rat × Rat) :=
  (List.range k).map (fun (i : Nat) =>
    (lo + (hi - lo) * (i : Rat) / (k : Rat), lo + (hi - lo) * ((i : Rat) + 1) / (k : Rat)))

/-- The binning pass for one numeric column (app.py lines 35-43): a binned
column is created only when the distinct present-value count exceeds 4, with
`num_bins` equal-width intervals over the observed value range. -/
def binColumn (vals : List (Option Rat)) : Option (List (Rat × Rat)) :=
  let unique_vals := nunique vals
  if 4 < unique_vals then
    some (mkBins (minVal (presentVals vals)) (maxVal (presentVals vals)) (num_bins unique_vals))
  else none

/-! ## The `update_graph` callback (app.py lines 109-123) -/

/-- A dataset row, restricted to the fields the callback reads: the
`usnews.median_rank` filter field, the chosen group variable's raw value
(pre-stringification, `none` when missing) and the `metric` field. -/
structure QRow where
  rank : Option Rat
  gval : Option String
  metric : Option Rat
deriving DecidableEq

/-- Pandas `astype(str)` (app.py line 112): missing values render as the
string "nan". -/
def strOf (v : Option String) : String := v.getD "nan"

/-- `between(lo, hi)` (app.py line 111): inclusive on both ends, false on a
missing value. -/
def inRange (r : Option Rat) (lo hi : Rat) : Bool :=
  match r with
  | none => false
  | some x => decide (lo ≤ x) && decide (x ≤ hi)

/-- `base_var = group_var.replace("_binned", "")` (app.py line 114). -/
def base_var (group_var : String) : String := strReplace group_var "_binned" ""

/-- Label resolution for one stringified raw value (app.py lines 116-121):
the ownership recode comes first, then the dictionary path (only for
non-binned variables with a dictionary entry, missing keys falling back to
"Unknown"), else the raw stringified value itself. -/
def resolveLabel (cfg : Config) (group_var : String) (v : String) : String :=
  if group_var == "ownership" then
    (if v == "1" then "Public" else "Private")
  else if varHasEntry cfg.dictRows cfg.cols (base_var group_var) &&
      !(endsWithB group_var "_binned") then
    (dictLookup cfg.dictRows cfg.cols (base_var group_var) v).getD "Unknown"
  else v

/-- The rows surviving the rank filter (app.py line 111). -/
def filteredRows (rows : List QRow) (lo hi : Rat) : List QRow :=
  rows.filter (fun r => inRange r.rank lo hi)

/-- Each surviving row annotated with its resolved group label and its metric
value (app.py lines 112-121). -/
def labeledRows (cfg : Config) (group_var : String) (rows : List QRow) (lo hi : Rat) :
    List (String × Option Rat) :=
  (filteredRows rows lo hi).map (fun r => (resolveLabel cfg group_var (strOf r.gval), r.metric))

/-- The metric values of the rows in group `g`, missing values dropped
(pandas `groupby(...)["metric"].mean()` skips `NaN`). -/
def groupMetrics (l : List (String × Option Rat)) (g : String) : List Rat :=
  (l.filter (fun p => p.1 == g)).filterMap (fun p => p.2)

/-- Mean of a list of metric values; `none` when the group has no present
metric (pandas yields `NaN` there). -/
def meanOpt (ms : List Rat) : Option Rat :=
  if ms.isEmpty then none else some (ms.sum / (ms.length : Rat))

/-- The mean metric of group `g`. -/
def groupMean (l : List (String × Option Rat)) (g : String) : Option Rat :=
  meanOpt (groupMetrics l g)

/-- Insertion into a list sorted ascending by the Python string order. -/
def insertStr (x : String) : List String → List String
  | [] => [x]
  | y :: l => if strLe x y then x :: y :: l else y :: insertStr x l

/-- Sort a list of strings ascending (pandas `groupby` sorts its group keys
ascending before aggregation). -/
def sortStr : List String → List String
  | [] => []
  | x :: l => insertStr x (sortStr l)

/-- The comparator of `sort_values("metric", ascending=False)` on the group
means: larger means first, missing means (all-`NaN` groups) last. -/
def leAgg (a b : String × Option Rat) : Bool :=
  match a.2, b.2 with
  | some x, some y => decide (y ≤ x)
  | some _, none => true
  | none, some _ => false
  | none, none => true

/-- Insertion step of the comparison sort modelling `sort_values`. -/
def insertAgg (x : String × Option Rat) :
    List (String × Option Rat) → List (String × Option Rat)
  | [] => [x]
  | y :: l => if leAgg x y then x :: y :: l else y :: insertAgg x l

/-- The sort of `sort_values("metric", ascending=False)` (app.py line 123),
modelled as an insertion sort by `leAgg`.  Pandas' default `quicksort` kind
does not guarantee the relative order of equal keys, so only conclusions
that hold for every `leAgg`-sorted permutation of the input (membership,
permutation, sortedness by `leAgg`) transfer from this model to the program;
on inputs below numpy's small-array threshold the library sort is an
insertion sort and coincides with this model exactly. -/
def sortAgg : List (String × Option Rat) → List (String × Option Rat)
  | [] => []
  | x :: l => insertAgg x (sortAgg l)

/-- The grouped rows as `groupby("group", as_index=False).mean()` emits them:
one entry per distinct label, in ascending label order. -/
def groupedAgg (l : List (String × Option Rat)) : List (String × Option Rat) :=
  (sortStr (dedupFirst (l.map (fun p => p.1)))).map (fun g => (g, groupMean l g))

/-- The aggregation computed by `update_graph` (app.py lines 109-123): the
per-group mean metrics of the filtered, labelled rows, sorted by mean
descending. -/
def update_graph (cfg : Config) (group_var : String) (rows : List QRow) (lo hi : Rat) :
    List (String × Option Rat) :=
  sortAgg (groupedAgg (labeledRows cfg group_var rows lo hi))

/-! ## Shared state (app.py module level; section 5 of the design) -/

/-- The process-wide shared state computed once at startup: the dataset, the
dictionary rows, the column names, the two classification lists and the
derived binned columns. -/
structure SharedState where
  earn_data : List QRow
  dictRows : List DictRow
  cols : List String
  categoricalList : List String
  numericList : List String
  binnedCols : List (String × List (Rat × Rat))

/-- One callback invocation as a state transformer.  App.py line 110 copies
the shared dataset (`df = earn_data.copy()`); every subsequent column
assignment of the callback hits that copy, so the shared-state component of
the result is the input state itself. -/
def runQuery (s : SharedState) (group_var : String) (lo hi : Rat) :
    SharedState × List (String × Option Rat) :=
  let df := s.earn_data
  (s, update_graph ⟨s.dictRows, s.cols⟩ group_var df lo hi)

/-! ## Order lemmas for the embedded string comparison -/

lemma charLt_iff {a b : Char} : charLt a b = true ↔ a < b := by
  simp [charLt]

lemma charLt_false_of_not {a b : Char} (h : ¬a < b) : charLt a b = false := by
  cases hc : charLt a b with
  | false => rfl
  | true => exact absurd (charLt_iff.mp hc) h

lemma strLtL_cons_iff {a b : Char} {as bs : List Char} :
    strLtL (a :: as) (b :: bs) = true ↔ a < b ∨ (a = b ∧ strLtL as bs = true) := by
  by_cases hab : a < b
  · simp [strLtL, charLt_iff.mpr hab, hab]
  · by_cases hba : b < a
    · have hne : ¬a = b := fun h => absurd hba (h ▸ lt_irrefl a)
      simp [strLtL, charLt_false_of_not hab, charLt_iff.mpr hba, hab, hne]
    · have heq : a = b := le_antisymm (not_lt.mp hba) (not_lt.mp hab)
      subst heq
      simp [strLtL, charLt_false_of_not hab]

lemma strLtL_trans : ∀ (l1 l2 l3 : List Char),
    strLtL l1 l2 = true → strLtL l2 l3 = true → strLtL l1 l3 = true := by
  intro l1
  induction l1 with
  | nil =>
    intro l2 l3 h1 h2
    cases l2 with
    | nil => simp [strLtL] at h1
    | cons b bs =>
      cases l3 with
      | nil => simp [strLtL] at h2
      | cons c cs => simp [strLtL]
  | cons a as ih =>
    intro l2 l3 h1 h2
    cases l2 with
    | nil => simp [strLtL] at h1
    | cons b bs =>
      cases l3 with
      | nil => simp [strLtL] at h2
      | cons c cs =>
        rw [strLtL_cons_iff] at h1 h2 ⊢
        rcases h1 with hab | ⟨hab, h1'⟩
        · rcases h2 with hbc | ⟨hbc, _⟩
          · exact Or.inl (lt_trans hab hbc)
          · exact Or.inl (hbc ▸ hab)
        · rcases h2 with hbc | ⟨hbc, h2'⟩
          · exact Or.inl (hab ▸ hbc)
          · exact Or.inr ⟨hab.trans hbc, ih bs cs h1' h2'⟩

lemma strLtL_asymm : ∀ (l1 l2 : List Char), strLtL l1 l2 = true → strLtL l2 l1 = false := by
  intro l1
  induction l1 with
  | nil =>
    intro l2 h
    cases l2 with
    | nil => simp [strLtL] at h
    | cons b bs => simp [strLtL]
  | cons a as ih =>
    intro l2 h
    cases l2 with
    | nil => simp [strLtL] at h
    | cons b bs =>
      rw [strLtL_cons_iff] at h
      rw [Bool.eq_false_iff]
      intro hcontra
      rw [strLtL_cons_iff] at hcontra
      rcases h with hab | ⟨hab, h'⟩
      · rcases hcontra with hba | ⟨hba, _⟩
        · exact absurd hba (lt_asymm hab)
        · exact absurd hba.symm (ne_of_lt hab)
      · rcases hcontra with hba | ⟨_, h''⟩
        · exact absurd hba (hab ▸ lt_irrefl a)
        · exact absurd h'' (by rw [ih bs h'] ; simp)

lemma strLtL_connex : ∀ (l1 l2 : List Char),
    strLtL l1 l2 = false → strLtL l2 l1 = false → l1 = l2 := by
  intro l1
  induction l1 with
  | nil =>
    intro l2 h1 _
    cases l2 with
    | nil => rfl
    | cons b bs => simp [strLtL] at h1
  | cons a as ih =>
    intro l2 h1 h2
    cases l2 with
    | nil => simp [strLtL] at h2
    | cons b bs =>
      have h1' : ¬(a < b ∨ (a = b ∧ strLtL as bs = true)) := by
        rw [← strLtL_cons_iff] ; simp [h1]
      have h2' : ¬(b < a ∨ (b = a ∧ strLtL bs as = true)) := by
        rw [← strLtL_cons_iff] ; simp [h2]
      push_neg at h1' h2'
      have heq : a = b := le_antisymm h2'.1 h1'.1
      have has : as = bs :=
        ih bs (by simpa using h1'.2 heq) (by simpa using h2'.2 heq.symm)
      rw [heq, has]

lemma strLt_trans {a b c : String} (h1 : strLt a b = true) (h2 : strLt b c = true) :
    strLt a c = true :=
  strLtL_trans a.data b.data c.data h1 h2

lemma strLt_asymm {a b : String} (h : strLt a b = true) : strLt b a = false :=
  strLtL_asymm a.data b.data h

lemma strLt_connex {a b : String} (h1 : strLt a b = false) (h2 : strLt b a = false) : a = b :=
  String.ext (strLtL_connex a.data b.data h1 h2)

lemma strLe_total {a b : String} (h : strLe a b = false) : strLe b a = true := by
  have h' : strLt b a = true := by simpa [strLe] using h
  simp [strLe, strLt_asymm h']

lemma strLe_trans {a b c : String} (h1 : strLe a b = true) (h2 : strLe b c = true) :
    strLe a c = true := by
  have h1' : strLt b a = false := by simpa [strLe] using h1
  have h2' : strLt c b = false := by simpa [strLe] using h2
  suffices hgoal : strLt c a = false by simp [strLe, hgoal]
  cases hca : strLt c a with
  | false => rfl
  | true =>
    exfalso
    cases hbc : strLt b c with
    | true => exact absurd (strLt_trans hbc hca) (by simp [h1'])
    | false =>
      have hbceq : b = c := strLt_connex hbc h2'
      rw [← hbceq] at hca
      exact absurd hca (by simp [h1'])

lemma strLt_of_strLe_of_ne {a b : String} (h1 : strLe a b = true) (h2 : a ≠ b) :
    strLt a b = true := by
  have h1' : strLt b a = false := by simpa [strLe] using h1
  cases hab : strLt a b with
  | true => rfl
  | false => exact absurd (strLt_connex hab h1') h2

/-! ## Lemmas about `dedupFirst` and the two sorts -/

lemma mem_dedupFirstAux {α : Type} [DecidableEq α] {a : α} :
    ∀ {l seen : List α}, a ∈ dedupFirstAux seen l ↔ a ∈ l ∧ a ∉ seen := by
  intro l
  induction l with
  | nil => intro seen ; simp [dedupFirstAux]
  | cons x l ih =>
    intro seen
    by_cases hx : x ∈ seen
    · rw [dedupFirstAux, if_pos hx, ih]
      constructor
      · rintro ⟨hl, hs⟩ ; exact ⟨List.mem_cons_of_mem x hl, hs⟩
      · rintro ⟨hl, hs⟩
        rcases List.mem_cons.mp hl with heq | hl'
        · exact absurd (heq ▸ hx) hs
        · exact ⟨hl', hs⟩
    · rw [dedupFirstAux, if_neg hx]
      rw [List.mem_cons, ih]
      constructor
      · rintro (heq | ⟨hl, hs⟩)
        · exact ⟨by rw [heq] ; exact List.mem_cons_self x l, by rw [heq] ; exact hx⟩
        · exact ⟨List.mem_cons_of_mem x hl, fun hc => hs (List.mem_cons_of_mem x hc)⟩
      · rintro ⟨hl, hs⟩
        rcases List.mem_cons.mp hl with heq | hl'
        · exact Or.inl heq
        · by_cases hax : a = x
          · exact Or.inl hax
          · exact Or.inr ⟨hl', by simp [List.mem_cons, hax, hs]⟩


lemma mem_dedupFirst {α : Type} [DecidableEq α] {a : α} {l : List α} :
    a ∈ dedupFirst l ↔ a ∈ l := by
  rw [dedupFirst, mem_dedupFirstAux] ; simp

lemma nodup_dedupFirstAux {α : Type} [DecidableEq α] :
    ∀ (l seen : List α), (dedupFirstAux seen l).Nodup := by
  intro l
  induction l with
  | nil => intro seen ; simp [dedupFirstAux]
  | cons x l ih =>
    intro seen
    by_cases hx : x ∈ seen
    · rw [dedupFirstAux, if_pos hx] ; exact ih seen
    · rw [dedupFirstAux, if_neg hx]
      refine List.nodup_cons.mpr ⟨?_, ih (x :: seen)⟩
      intro hc
      exact absurd (List.mem_cons_self x seen) (mem_dedupFirstAux.mp hc).2

lemma nodup_dedupFirst {α : Type} [DecidableEq α] (l : List α) : (dedupFirst l).Nodup :=
  nodup_dedupFirstAux l []

lemma insertStr_perm (x : String) : ∀ (l : List String), List.Perm (insertStr x l) (x :: l) := by
  intro l
  induction l with
  | nil => rfl
  | cons y l ih =>
    rw [insertStr]
    by_cases h : strLe x y = true
    · rw [if_pos h]
    · rw [if_neg h]
      exact ((ih.cons y).trans (List.Perm.swap x y l))

lemma sortStr_perm : ∀ (l : List String), List.Perm (sortStr l) l := by
  intro l
  induction l with
  | nil => rfl
  | cons x l ih => exact (insertStr_perm x (sortStr l)).trans (ih.cons x)

lemma pairwise_insertStr {x : String} :
    ∀ {l : List String}, l.Pairwise (fun a b => strLe a b = true) →
      (insertStr x l).Pairwise (fun a b => strLe a b = true) := by
  intro l
  induction l with
  | nil => intro _ ; simp [insertStr]
  | cons y l ih =>
    intro h
    rcases List.pairwise_cons.mp h with ⟨hy, hl⟩
    rw [insertStr]
    by_cases hxy : strLe x y = true
    · rw [if_pos hxy]
      refine List.pairwise_cons.mpr ⟨?_, h⟩
      intro z hz
      rcases List.mem_cons.mp hz with heq | hz'
      · exact heq ▸ hxy
      · exact strLe_trans hxy (hy z hz')
    · rw [if_neg hxy]
      refine List.pairwise_cons.mpr ⟨?_, ih hl⟩
      intro z hz
      rcases List.mem_cons.mp ((insertStr_perm x l).mem_iff.mp hz) with heq | hz'
      · have := strLe_total (Bool.eq_false_iff.mpr hxy)
        exact heq ▸ this
      · exact hy z hz'

lemma pairwise_sortStr : ∀ (l : List String),
    (sortStr l).Pairwise (fun a b => strLe a b = true) := by
  intro l
  induction l with
  | nil => simp [sortStr]
  | cons x l ih => exact pairwise_insertStr ih

lemma pairwise_lt_sortStr {l : List String} (h : l.Nodup) :
    (sortStr l).Pairwise (fun a b => strLt a b = true) := by
  have hnd : (sortStr l).Nodup := ((sortStr_perm l).nodup_iff).mpr h
  have hle := pairwise_sortStr l
  exact (hle.and hnd).imp (fun hab => strLt_of_strLe_of_ne hab.1 hab.2)

/-! ## Lemmas about the mean-descending sort -/

lemma leAgg_total {a b : String × Option Rat} (h : leAgg a b = false) : leAgg b a = true := by
  rcases a with ⟨ga, ma⟩ ; rcases b with ⟨gb, mb⟩
  cases ma <;> cases mb <;> simp [leAgg] at h ⊢
  exact le_of_lt h

lemma leAgg_trans {a b c : String × Option Rat} (h1 : leAgg a b = true)
    (h2 : leAgg b c = true) : leAgg a c = true := by
  rcases a with ⟨ga, ma⟩ ; rcases b with ⟨gb, mb⟩ ; rcases c with ⟨gc, mc⟩
  cases ma <;> cases mb <;> cases mc <;> simp [leAgg] at h1 h2 ⊢
  exact le_trans h2 h1

lemma mem_insertAgg {a x : String × Option Rat} :
    ∀ {l : List (String × Option Rat)}, a ∈ insertAgg x l ↔ a = x ∨ a ∈ l := by
  intro l
  induction l with
  | nil => simp [insertAgg]
  | cons y l ih =>
    rw [insertAgg]
    by_cases h : leAgg x y = true
    · rw [if_pos h] ; simp [List.mem_cons]
    · rw [if_neg h]
      rw [List.mem_cons, ih, List.mem_cons]
      tauto

lemma mem_sortAgg {a : String × Option Rat} :
    ∀ {l : List (String × Option Rat)}, a ∈ sortAgg l ↔ a ∈ l := by
  intro l
  induction l with
  | nil => simp [sortAgg]
  | cons x l ih =>
    rw [sortAgg, mem_insertAgg, ih, List.mem_cons]

lemma insertAgg_perm (x : String × Option Rat) :
    ∀ (l : List (String × Option Rat)), List.Perm (insertAgg x l) (x :: l) := by
  intro l
  induction l with
  | nil => rfl
  | cons y l ih =>
    rw [insertAgg]
    by_cases h : leAgg x y = true
    · rw [if_pos h]
    · rw [if_neg h]
      exact ((ih.cons y).trans (List.Perm.swap x y l))

lemma sortAgg_perm : ∀ (l : List (String × Option Rat)), List.Perm (sortAgg l) l := by
  intro l
  induction l with
  | nil => rfl
  | cons x l ih => exact (insertAgg_perm x (sortAgg l)).trans (ih.cons x)

lemma pairwise_leAgg_insertAgg {x : String × Option Rat} :
    ∀ {l : List (String × Option Rat)}, l.Pairwise (fun a b => leAgg a b = true) →
      (insertAgg x l).Pairwise (fun a b => leAgg a b = true) := by
  intro l
  induction l with
  | nil => intro _ ; simp [insertAgg]
  | cons y l ih =>
    intro h
    rcases List.pairwise_cons.mp h with ⟨hy, hl⟩
    rw [insertAgg]
    by_cases hxy : leAgg x y = true
    · rw [if_pos hxy]
      refine List.pairwise_cons.mpr ⟨?_, h⟩
      intro z hz
      rcases List.mem_cons.mp hz with heq | hz'
      · exact heq ▸ hxy
      · exact leAgg_trans hxy (hy z hz')
    · rw [if_neg hxy]
      refine List.pairwise_cons.mpr ⟨?_, ih hl⟩
      intro z hz
      rcases mem_insertAgg.mp hz with heq | hz'
      · exact heq ▸ leAgg_total (Bool.eq_false_iff.mpr hxy)
      · exact hy z hz'

lemma pairwise_leAgg_sortAgg : ∀ (l : List (String × Option Rat)),
    (sortAgg l).Pairwise (fun a b => leAgg a b = true) := by
  intro l
  induction l with
  | nil => simp [sortAgg]
  | cons x l ih => exact pairwise_leAgg_insertAgg ih

/-! ## Concrete fixtures for witnesses and counterexamples -/

/-- A configuration with an empty dictionary table. -/
def cexCfg : Config := ⟨[], ["state", "usnews.median_rank", "metric"]⟩

/-- Two in-range rows with equal metrics whose group labels are first
encountered in the order "b", "a". -/
def cexRows : List QRow := [⟨some 1, some "b", some 2⟩, ⟨some 1, some "a", some 2⟩]

/-- A configuration whose dictionary labels the `state` variable. -/
def cfgState : Config := ⟨[⟨"state", some "1", some "California"⟩], ["state"]⟩

/-- One in-range row whose group value is missing. -/
def nanRows : List QRow := [⟨some 1, none, some 2⟩]

/-- A numeric column with five distinct present values. -/
def vals5 : List (Option Rat) := [some 1, some 2, some 3, some 4, some 5]

/-! ## Claim theorems -/

/-- C2: a binned column is produced exactly when the distinct value count
exceeds 4, its interval count is `num_bins` of that count (the clamped
bit length), and that count always lies in `[4, 6]`. -/
theorem binColumn_bounds (vals : List (Option Rat)) :
    ((binColumn vals).isSome ↔ 4 < nunique vals)
    ∧ ∀ b, binColumn vals = some b →
        b.length = num_bins (nunique vals) ∧ 4 ≤ b.length ∧ b.length ≤ 6 := by
  constructor
  · by_cases h : 4 < nunique vals
    · simp [binColumn, h]
    · simp [binColumn, h]
  · intro b hb
    simp only [binColumn] at hb
    by_cases h : 4 < nunique vals
    · rw [if_pos h] at hb
      have hb' := (Option.some.inj hb).symm
      subst hb'
      have hlen : (mkBins (minVal (presentVals vals)) (maxVal (presentVals vals))
          (num_bins (nunique vals))).length = num_bins (nunique vals) := by
        rw [mkBins, List.length_map, List.length_range]
      refine ⟨hlen, ?_, ?_⟩
      · rw [hlen, num_bins]
        exact le_min (le_max_left 4 _) (by norm_num)
      · rw [hlen, num_bins]
        exact min_le_right _ 6
    · rw [if_neg h] at hb
      exact absurd hb (by simp)

/-- C2 witness: a column with five distinct values is binned, with between
4 and 6 intervals. -/
theorem binColumn_bounds_witness :
    (binColumn vals5).isSome
    ∧ 4 ≤ (mkBins (minVal (presentVals vals5)) (maxVal (presentVals vals5))
        (num_bins (nunique vals5))).length
    ∧ (mkBins (minVal (presentVals vals5)) (maxVal (presentVals vals5))
        (num_bins (nunique vals5))).length ≤ 6 :=
  ⟨(binColumn_bounds vals5).1.mpr (by decide),
   ((binColumn_bounds vals5).2 _ rfl).2.1,
   ((binColumn_bounds vals5).2 _ rfl).2.2⟩

/-- C4: with the ownership group variable, a stringified row value of "1"
resolves to "Public" and any other value to "Private", for every
configuration (the dictionary is bypassed entirely). -/
theorem resolveLabel_ownership_recode (cfg : Config) (ov : Option String) :
    resolveLabel cfg "ownership" (strOf ov) =
      if strOf ov = "1" then "Public" else "Private" := by
  rw [resolveLabel, if_pos (by simp)]
  by_cases h : strOf ov = "1"
  · rw [if_pos (by simp [h]), if_pos h]
  · rw [if_neg (by simp [h]), if_neg h]

/-- C7: an inverted filter range (low > high) yields an empty aggregation
result on any dataset. -/
theorem update_graph_inverted_range (cfg : Config) (group_var : String)
    (rows : List QRow) (lo hi : Rat) (h : hi < lo) :
    update_graph cfg group_var rows lo hi = [] := by
  have hf : filteredRows rows lo hi = [] := by
    rw [filteredRows, List.filter_eq_nil_iff]
    intro r _
    cases hrank : r.rank with
    | none => simp [inRange, hrank]
    | some x =>
      simp only [inRange, hrank, Bool.and_eq_true, decide_eq_true_eq]
      rintro ⟨hlo, hhi⟩
      exact absurd (le_trans hlo hhi) (not_le.mpr h)
  simp only [update_graph, groupedAgg, labeledRows, hf, List.map_nil]
  rfl

/-- C7 witness: the inverted range [100, 1] on a non-empty dataset produces
an empty result. -/
theorem update_graph_inverted_range_witness :
    cexRows ≠ [] ∧ update_graph cexCfg "state" cexRows 100 1 = [] :=
  ⟨by decide, update_graph_inverted_range cexCfg "state" cexRows 100 1 (by decide)⟩

/-- C9: a query returns the shared state unchanged (the callback works on a
copy of the dataset), so a repeated query on the returned state produces the
identical result. -/
theorem runQuery_preserves_state (s : SharedState) (group_var : String) (lo hi : Rat) :
    (runQuery s group_var lo hi).1 = s
    ∧ (runQuery ((runQuery s group_var lo hi).1) group_var lo hi).2 =
        (runQuery s group_var lo hi).2 :=
  ⟨rfl, rfl⟩

/-- C1 (amended): the aggregation returned by `update_graph` is a
permutation of the per-group means and is sorted by mean descending, groups
without a present metric last.  The relative order of equal-mean groups is
implementation-defined (`sort_values`' default quicksort does not guarantee
equal-key order) and in particular is not guaranteed to be first-encounter
order. -/
theorem update_graph_ordering (cfg : Config) (group_var : String) (rows : List QRow)
    (lo hi : Rat) :
    List.Perm (update_graph cfg group_var rows lo hi)
      (groupedAgg (labeledRows cfg group_var rows lo hi))
    ∧ (update_graph cfg group_var rows lo hi).Pairwise (fun a b => leAgg a b = true) :=
  ⟨sortAgg_perm (groupedAgg (labeledRows cfg group_var rows lo hi)),
   pairwise_leAgg_sortAgg (groupedAgg (labeledRows cfg group_var rows lo hi))⟩

/-- C1 counterexample: with two equal-mean groups whose labels are first
encountered in the order "b", "a", `update_graph` returns them in ascending
label order "a", "b" — the order `groupby` emits its keys — not in
first-encounter order.  (On a two-element aggregation the library sort is an
insertion sort, so the model's evaluation matches the program exactly.) -/
theorem update_graph_first_encounter_cex :
    update_graph cexCfg "state" cexRows 0 10 = [("a", some 2), ("b", some 2)]
    ∧ dedupFirst ((labeledRows cexCfg "state" cexRows 0 10).map (fun p => p.1)) = ["b", "a"]
    ∧ [(("a" : String), (some 2 : Option Rat)), ("b", some 2)] ≠
        [("b", some 2), ("a", some 2)] := by
  refine ⟨?_, ?_, by decide⟩
  · norm_num [update_graph, groupedAgg, labeledRows, filteredRows, inRange, resolveLabel,
      strOf, varHasEntry, qualRows, dictLookup, dedupFirst, dedupFirstAux, sortStr, insertStr,
      strLe, strLt, strLtL, charLt, sortAgg, insertAgg, leAgg, groupMean, groupMetrics,
      meanOpt, base_var, strReplace, replaceFuel, endsWithB, cexCfg, cexRows,
      Option.some_ne_none, List.filterMap_cons, List.filterMap_nil,
      (show ("state" : String) ≠ "ownership" by decide),
      (show ("a" : String) ≠ "b" by decide), (show ("b" : String) ≠ "a" by decide)]
  · norm_num [labeledRows, filteredRows, inRange, resolveLabel, strOf, varHasEntry, qualRows,
      dedupFirst, dedupFirstAux, base_var, strReplace, replaceFuel, endsWithB, cexCfg, cexRows,
      (show ("state" : String) ≠ "ownership" by decide),
      (show ("a" : String) ≠ "b" by decide), (show ("b" : String) ≠ "a" by decide)]

/-- C6: a row survives the rank filter exactly when its filter-column value
is present and lies in `[lo, hi]` inclusive, and every pair of the
aggregation result carries the arithmetic mean of the present metric values
of its group (missing metrics ignored, `none` when no metric is present). -/
theorem update_graph_filter_mean (cfg : Config) (group_var : String) (rows : List QRow)
    (lo hi : Rat) :
    (∀ r : QRow, r ∈ filteredRows rows lo hi ↔
      r ∈ rows ∧ ∃ x : Rat, r.rank = some x ∧ lo ≤ x ∧ x ≤ hi)
    ∧ ∀ p ∈ update_graph cfg group_var rows lo hi,
        p.2 = meanOpt (groupMetrics (labeledRows cfg group_var rows lo hi) p.1) := by
  constructor
  · intro r
    rw [filteredRows, List.mem_filter]
    constructor
    · rintro ⟨hr, hin⟩
      refine ⟨hr, ?_⟩
      cases hrank : r.rank with
      | none => rw [hrank] at hin ; simp [inRange] at hin
      | some x =>
        rw [hrank] at hin
        simp only [inRange, Bool.and_eq_true, decide_eq_true_eq] at hin
        exact ⟨x, rfl, hin.1, hin.2⟩
    · rintro ⟨hr, x, hx, hlo, hhi⟩
      exact ⟨hr, by simp [inRange, hx, hlo, hhi]⟩
  · intro p hp
    have hp' : p ∈ groupedAgg (labeledRows cfg group_var rows lo hi) := mem_sortAgg.mp hp
    rw [groupedAgg] at hp'
    rcases List.mem_map.mp hp' with ⟨g, _, hpg⟩
    rw [← hpg]
    rfl

/-- C6 witness: at a concrete query, the entry for group "a" carries the
mean of that group's present metrics. -/
theorem update_graph_filter_mean_witness :
    ((("a" : String), (some 2 : Option Rat))).2 =
      meanOpt (groupMetrics (labeledRows cexCfg "state" cexRows 0 10)
        ((("a" : String), (some 2 : Option Rat))).1) :=
  (update_graph_filter_mean cexCfg "state" cexRows 0 10).2 ("a", some 2)
    (by norm_num [update_graph, groupedAgg, labeledRows, filteredRows, inRange, resolveLabel,
      strOf, varHasEntry, qualRows, dictLookup, dedupFirst, dedupFirstAux, sortStr, insertStr,
      strLe, strLt, strLtL, charLt, sortAgg, insertAgg, leAgg, groupMean, groupMetrics,
      meanOpt, base_var, strReplace, replaceFuel, endsWithB, cexCfg, cexRows,
      Option.some_ne_none, List.filterMap_cons, List.filterMap_nil, List.mem_cons,
      (show ("state" : String) ≠ "ownership" by decide),
      (show ("a" : String) ≠ "b" by decide), (show ("b" : String) ≠ "a" by decide)])

/-- C10: in the raw labelling path (group variable neither the ownership
variable nor dictionary-mapped), a filtered row with a missing group value
resolves to the string "nan" — not "Unknown" — and the "nan" group appears
in the aggregation result. -/
theorem update_graph_nan_group (cfg : Config) (group_var : String) (rows : List QRow)
    (lo hi : Rat) (r : QRow) (h1 : group_var ≠ "ownership")
    (h2 : varHasEntry cfg.dictRows cfg.cols (base_var group_var) = false
      ∨ endsWithB group_var "_binned" = true)
    (h3 : r ∈ rows) (h4 : inRange r.rank lo hi = true) (h5 : r.gval = none) :
    resolveLabel cfg group_var (strOf r.gval) = "nan"
    ∧ ("nan" : String) ≠ "Unknown"
    ∧ "nan" ∈ (update_graph cfg group_var rows lo hi).map (fun p => p.1) := by
  have hresolve : resolveLabel cfg group_var (strOf r.gval) = "nan" := by
    rw [h5]
    rw [resolveLabel, if_neg (by simp [h1])]
    rcases h2 with h2 | h2
    · rw [if_neg (by simp [h2])]
      rfl
    · rw [if_neg (by simp [h2])]
      rfl
  refine ⟨hresolve, by decide, ?_⟩
  have hrf : r ∈ filteredRows rows lo hi := List.mem_filter.mpr ⟨h3, h4⟩
  have hlab : ("nan", r.metric) ∈ labeledRows cfg group_var rows lo hi := by
    rw [labeledRows]
    refine List.mem_map.mpr ⟨r, hrf, ?_⟩
    rw [hresolve]
  have hfst : "nan" ∈ (labeledRows cfg group_var rows lo hi).map (fun p => p.1) :=
    List.mem_map.mpr ⟨("nan", r.metric), hlab, rfl⟩
  have hded : "nan" ∈ dedupFirst ((labeledRows cfg group_var rows lo hi).map (fun p => p.1)) :=
    mem_dedupFirst.mpr hfst
  have hsorted :
      "nan" ∈ sortStr (dedupFirst ((labeledRows cfg group_var rows lo hi).map (fun p => p.1))) :=
    (sortStr_perm _).mem_iff.mpr hded
  have hga : ("nan", groupMean (labeledRows cfg group_var rows lo hi) "nan") ∈
      groupedAgg (labeledRows cfg group_var rows lo hi) := by
    rw [groupedAgg]
    exact List.mem_map.mpr ⟨"nan", hsorted, rfl⟩
  have hsa : ("nan", groupMean (labeledRows cfg group_var rows lo hi) "nan") ∈
      update_graph cfg group_var rows lo hi := mem_sortAgg.mpr hga
  exact List.mem_map.mpr ⟨_, hsa, rfl⟩

/-- C10 witness: a concrete filtered row with missing group value yields the
group "nan" in the result. -/
theorem update_graph_nan_group_witness :
    resolveLabel cexCfg "state" (strOf (⟨some 1, none, some 2⟩ : QRow).gval) = "nan"
    ∧ ("nan" : String) ≠ "Unknown"
    ∧ "nan" ∈ (update_graph cexCfg "state" nanRows 0 10).map (fun p => p.1) :=
  update_graph_nan_group cexCfg "state" nanRows 0 10 ⟨some 1, none, some 2⟩
    (by decide) (Or.inl (by decide)) (by decide) (by decide) rfl

/-- A configuration whose dictionary labels the `ownership` variable. -/
def cfgOwn : Config := ⟨[⟨"ownership", some "1", some "Pub"⟩], ["ownership"]⟩

/-- C3 counterexample: `ownership` is a non-binned group variable whose base
name can have a dictionary entry, yet resolution does not go through the
dictionary: the unmapped value "2" resolves to "Private", not "Unknown". -/
theorem resolveLabel_ownership_not_dict_cex :
    endsWithB "ownership" "_binned" = false
    ∧ varHasEntry cfgOwn.dictRows cfgOwn.cols (base_var "ownership") = true
    ∧ resolveLabel cfgOwn "ownership" "2" = "Private"
    ∧ (dictLookup cfgOwn.dictRows cfgOwn.cols (base_var "ownership") "2").getD "Unknown"
        = "Unknown"
    ∧ ("Private" : String) ≠ "Unknown" :=
  ⟨by decide, by decide, by decide, by decide, by decide⟩

/-- C3 (amended): for a non-binned group variable other than `ownership`
whose base name has a dictionary entry, every value is mapped through the
dictionary with "Unknown" fallback; a binned group variable (other than
`ownership`) is never dictionary-mapped even when its base name has an
entry; and labelling keeps every filtered row. -/
theorem resolveLabel_dict_path (cfg : Config) (gv1 gv2 gv3 v : String)
    (rows : List QRow) (lo hi : Rat)
    (h1 : endsWithB gv1 "_binned" = false) (h2 : gv1 ≠ "ownership")
    (h3 : varHasEntry cfg.dictRows cfg.cols (base_var gv1) = true)
    (h4 : endsWithB gv2 "_binned" = true) (h5 : gv2 ≠ "ownership") :
    resolveLabel cfg gv1 v = (dictLookup cfg.dictRows cfg.cols (base_var gv1) v).getD "Unknown"
    ∧ resolveLabel cfg gv2 v = v
    ∧ (labeledRows cfg gv3 rows lo hi).length = (filteredRows rows lo hi).length := by
  refine ⟨?_, ?_, by rw [labeledRows, List.length_map]⟩
  · rw [resolveLabel, if_neg (by simp [h2]), if_pos (by simp [h1, h3])]
  · rw [resolveLabel, if_neg (by simp [h5]), if_neg (by simp [h4])]

/-- C3 witness: with a dictionary entry for `state`, the variable `state` is
mapped through the dictionary and a binned variable is not; labelling keeps
every filtered row. -/
theorem resolveLabel_dict_path_witness :
    resolveLabel cfgState "state" "1" =
      (dictLookup cfgState.dictRows cfgState.cols (base_var "state") "1").getD "Unknown"
    ∧ resolveLabel cfgState "admission_rate_binned" "1" = "1"
    ∧ (labeledRows cfgState "state" cexRows 0 10).length =
        (filteredRows cexRows 0 10).length :=
  resolveLabel_dict_path cfgState "state" "admission_rate_binned" "state" "1" cexRows 0 10
    (by decide) (by decide) (by decide) (by decide) (by decide)

/-- C5: the dictionary has an entry for the pair `(v, val)` iff `v` is a
dataset column and some dictionary row carries variable `v`, string value
`val` and a present label; and when the last dictionary row qualifies for
`(v, val)`, its label is the lookup result, overriding any earlier duplicate
(last-write-wins). -/
theorem dictLookup_spec (dictRows l : List DictRow) (r : DictRow) (cols : List String)
    (v val lab : String) (h1 : r.varName = v) (h2 : cols.contains v = true)
    (h3 : r.value = some val) (h4 : r.label = some lab) :
    ((dictLookup dictRows cols v val).isSome ↔
      (cols.contains v = true ∧
        ∃ q ∈ dictRows, q.varName = v ∧ q.value = some val ∧ q.label.isSome = true))
    ∧ dictLookup (l ++ [r]) cols v val = some lab := by
  constructor
  · rw [dictLookup]
    constructor
    · intro hs
      cases hlast : ((qualRows dictRows cols).filter
          (fun q => q.varName == v && q.value == some val)).getLast? with
      | none => rw [hlast] at hs ; simp at hs
      | some q =>
        have hq := List.mem_of_getLast?_eq_some hlast
        rw [List.mem_filter] at hq
        rcases hq with ⟨hq1, hq2⟩
        rw [qualRows, List.mem_filter] at hq1
        rcases hq1 with ⟨hq0, hq3⟩
        simp only [Bool.and_eq_true, beq_iff_eq] at hq2 hq3
        exact ⟨by rw [← hq2.1] ; exact hq3.1.1, q, hq0, hq2.1, hq2.2, hq3.1.2⟩
    · rintro ⟨hcols, q, hq, hvar, hval, hlab⟩
      have hcolsmem : v ∈ cols := by simpa using hcols
      have hqual : q ∈ qualRows dictRows cols :=
        List.mem_filter.mpr ⟨hq, by simp [hvar, hcolsmem, hval, hlab]⟩
      have hmemf : q ∈ (qualRows dictRows cols).filter
          (fun p => p.varName == v && p.value == some val) :=
        List.mem_filter.mpr ⟨hqual, by simp [hvar, hval]⟩
      cases hlast : ((qualRows dictRows cols).filter
          (fun p => p.varName == v && p.value == some val)).getLast? with
      | none =>
        have hne := List.ne_nil_of_mem hmemf
        rw [← List.getLast?_isSome, hlast] at hne
        simp at hne
      | some q' =>
        have hq' := List.mem_of_getLast?_eq_some hlast
        rw [List.mem_filter, qualRows, List.mem_filter] at hq'
        simp only [Bool.and_eq_true] at hq'
        simpa using hq'.1.2.1.2
  · rw [dictLookup]
    have hcm : v ∈ cols := by simpa using h2
    have e1 : qualRows (l ++ [r]) cols = qualRows l cols ++ [r] := by
      rw [qualRows, qualRows, List.filter_append]
      congr 1
      simp [h1, hcm, h3, h4]
    rw [e1, List.filter_append]
    have e2 : List.filter (fun p => p.varName == v && p.value == some val) [r] = [r] := by
      simp [h1, h3]
    rw [e2, List.getLast?_concat]
    simp [h4]

/-- C5 witness: with two dictionary rows carrying the same VALUE for the same
variable, lookup returns the label of the later row. -/
theorem dictLookup_spec_witness :
    ((dictLookup [⟨"state", some "1", some "Older"⟩, ⟨"state", some "1", some "Newer"⟩]
        ["state"] "state" "1").isSome ↔
      ((["state"] : List String).contains "state" = true ∧
        ∃ q ∈ [(⟨"state", some "1", some "Older"⟩ : DictRow),
            ⟨"state", some "1", some "Newer"⟩],
          q.varName = "state" ∧ q.value = some "1" ∧ q.label.isSome = true))
    ∧ dictLookup ([⟨"state", some "1", some "Older"⟩] ++ [⟨"state", some "1", some "Newer"⟩])
        ["state"] "state" "1" = some "Newer" :=
  dictLookup_spec [⟨"state", some "1", some "Older"⟩, ⟨"state", some "1", some "Newer"⟩]
    [⟨"state", some "1", some "Older"⟩] ⟨"state", some "1", some "Newer"⟩
    ["state"] "state" "1" "Newer" (by decide) (by decide) (by decide) (by decide)

/-- C8: the classifier's categorical and numeric pools are disjoint, and a
column (the dataset's column names being distinct) lands in neither pool
exactly when its name is in the fixed exclusion set, it has fewer than 2
distinct non-missing values, or it satisfies neither the categorical rule
nor the numeric-dtype rule. -/
theorem classification_partition (cfg : Config) (cols : List Column) (c : Column)
    (hmem : c ∈ cols) (hnd : (cols.map (fun d => d.cname)).Nodup) :
    ¬(c.cname ∈ categorical_vars cfg cols ∧ c.cname ∈ numeric_vars cfg cols)
    ∧ ((c.cname ∉ categorical_vars cfg cols ∧ c.cname ∉ numeric_vars cfg cols) ↔
        (c.cname ∈ exclude_cols ∨ c.nuniqueDropna < 2 ∨
          (isCatCol cfg c = false ∧ isNumCol c = false))) := by
  have hinj : ∀ d ∈ cols, d.cname = c.cname → d = c := by
    intro d hd hdc
    by_contra hne
    have hpw : cols.Pairwise (fun a b => a.cname ≠ b.cname) := List.pairwise_map.mp hnd
    exact absurd hdc (List.Pairwise.forall (fun _ _ h => h.symm) hpw hd hmem hne)
  have hvalid : c ∈ valid_cols cols ↔
      (c.cname ∉ exclude_cols ∧ 2 ≤ c.nuniqueDropna) := by
    rw [valid_cols, List.mem_filter, candidate_cols, List.mem_filter]
    constructor
    · rintro ⟨⟨_, hc1⟩, hc2⟩
      refine ⟨by simpa using hc1, ?_⟩
      have := of_decide_eq_true hc2
      omega
    · rintro ⟨hx, hn⟩
      refine ⟨⟨hmem, by simpa using hx⟩, by simp ; omega⟩
  have hcat : c.cname ∈ categorical_vars cfg cols ↔
      (c ∈ valid_cols cols ∧ isCatCol cfg c = true) := by
    rw [categorical_vars]
    constructor
    · intro h
      rcases List.mem_map.mp h with ⟨d, hd, hdc⟩
      rw [List.mem_filter] at hd
      have hdcols : d ∈ cols := by
        have h1 := hd.1
        rw [valid_cols, List.mem_filter, candidate_cols, List.mem_filter] at h1
        exact h1.1.1
      rw [hinj d hdcols hdc] at hd
      exact hd
    · rintro ⟨hv, hc⟩
      exact List.mem_map.mpr ⟨c, List.mem_filter.mpr ⟨hv, hc⟩, rfl⟩
  have hnum : c.cname ∈ numeric_vars cfg cols ↔
      (c ∈ valid_cols cols ∧ (!isCatCol cfg c && isNumCol c) = true) := by
    rw [numeric_vars]
    constructor
    · intro h
      rcases List.mem_map.mp h with ⟨d, hd, hdc⟩
      rw [List.mem_filter] at hd
      have hdcols : d ∈ cols := by
        have h1 := hd.1
        rw [valid_cols, List.mem_filter, candidate_cols, List.mem_filter] at h1
        exact h1.1.1
      rw [hinj d hdcols hdc] at hd
      exact hd
    · rintro ⟨hv, hc⟩
      exact List.mem_map.mpr ⟨c, List.mem_filter.mpr ⟨hv, hc⟩, rfl⟩
  constructor
  · rintro ⟨h1, h2⟩
    rw [hcat] at h1
    rw [hnum] at h2
    rw [h1.2] at h2
    simp at h2
  · rw [hcat, hnum, hvalid]
    constructor
    · rintro ⟨h1, h2⟩
      by_cases he : c.cname ∈ exclude_cols
      · exact Or.inl he
      · by_cases hn : 2 ≤ c.nuniqueDropna
        · have hc1 : isCatCol cfg c = false := by
            cases hcc : isCatCol cfg c with
            | false => rfl
            | true => exact absurd ⟨⟨he, hn⟩, hcc⟩ h1
          have hc2 : isNumCol c = false := by
            cases hnc : isNumCol c with
            | false => rfl
            | true => exact absurd ⟨⟨he, hn⟩, by simp [hc1, hnc]⟩ h2
          exact Or.inr (Or.inr ⟨hc1, hc2⟩)
        · exact Or.inr (Or.inl (by omega))
    · rintro (he | hn | ⟨hc1, hc2⟩)
      · exact ⟨fun hc => hc.1.1 he, fun hc => hc.1.1 he⟩
      · exact ⟨fun hc => absurd hc.1.2 (by omega), fun hc => absurd hc.1.2 (by omega)⟩
      · refine ⟨fun hc => ?_, fun hc => ?_⟩
        · rw [hc1] at hc
          simp at hc
        · rw [hc2] at hc
          simp at hc

/-- A concrete object-dtype column named `state`. -/
def colState : Column := ⟨"state", Dtype.objectD, 3⟩

/-- C8 witness: the concrete column `state` (object dtype, 3 distinct values)
is classified consistently. -/
theorem classification_partition_witness :
    ¬(colState.cname ∈ categorical_vars cexCfg [colState]
        ∧ colState.cname ∈ numeric_vars cexCfg [colState])
    ∧ ((colState.cname ∉ categorical_vars cexCfg [colState]
        ∧ colState.cname ∉ numeric_vars cexCfg [colState]) ↔
        (colState.cname ∈ exclude_cols ∨ colState.nuniqueDropna < 2 ∨
          (isCatCol cexCfg colState = false ∧ isNumCol colState = false))) :=
  classification_partition cexCfg [colState] colState (by decide) (by decide)
